import Mathlib

/-!
Verification of the Korean schedule-assistant core (`assistant.py`) against its
natural-language specification.

The Python source is shallowly embedded in Lean:
* Python `str` is modelled as `List Char`; Python `int` as `Nat`/`Int`;
  Python `float` as `ℚ` (exact rational arithmetic; every numeric value
  exercised by the theorems below is exactly representable, and the float
  rounding of the source coincides with the rational value at those points).
* Fallible Python code (any path that can raise `ValueError` through a
  `datetime` constructor or `datetime.replace`) is modelled with
  `Except Unit`; `Except.error ()` marks a raised exception.
* The handful of fixed regular expressions of the source are embedded as
  dedicated scanners with Python `re` semantics (leftmost match, greedy
  quantifiers with backtracking, ordered alternation, non-overlapping
  `finditer`).  `\d`/`\s` are modelled as ASCII digits and the common
  whitespace characters.
* Calendar arithmetic (`date + timedelta`) is modelled as proleptic
  Gregorian day stepping; date construction from parsed numbers keeps the
  `datetime` range check (years 1..9999), which is where the source's
  `ValueError` behaviour lives.
* The SQLite event table is modelled as a list of rows in id order
  (SQLite row ids are assigned from a monotone counter, so `ORDER BY id ASC`
  is insertion order).
-/

/-! # Characters and basic string helpers -/

/-- Whitespace as matched by `\s` / `str.strip()` (common characters). -/
def isPyWs (c : Char) : Bool :=
  c = ' ' ∨ c = '\t' ∨ c = '\n' ∨ c = '\r' ∨ c = '\x0b' ∨ c = '\x0c'

/-- ASCII decimal digit, the `\d` of the source's patterns. -/
def isPyDigit (c : Char) : Bool := '0' ≤ c ∧ c ≤ '9'

/-- Characters stripped by `.strip(" ,.")`. -/
def isSpm (c : Char) : Bool := c = ' ' ∨ c = ',' ∨ c = '.'

/-- Drop matching characters from the end of a list. -/
def stripEnd (p : Char → Bool) (l : List Char) : List Char :=
  (l.reverse.dropWhile p).reverse

/-- Python `str.strip(chars)`: drop matching characters from both ends. -/
def stripBoth (p : Char → Bool) (l : List Char) : List Char :=
  stripEnd p (l.dropWhile p)

/-- Python `str.strip()` (whitespace from both ends). -/
def pyStrip (l : List Char) : List Char := stripBoth isPyWs l

/-- `re.sub(r"\s+", " ", ·)`: collapse every whitespace run to one space
(a whitespace character followed by more whitespace is dropped; the last
character of each run becomes the single `' '`). -/
def collapseWs : List Char → List Char
  | [] => []
  | [c] => if isPyWs c then [' '] else [c]
  | c1 :: c2 :: rest =>
    if isPyWs c1 then
      if isPyWs c2 then collapseWs (c2 :: rest)
      else ' ' :: collapseWs (c2 :: rest)
    else c1 :: collapseWs (c2 :: rest)

/-- Substring containment, Python's `needle in hay`. -/
def containsSub (needle hay : List Char) : Bool :=
  match hay with
  | [] => needle.isEmpty
  | _ :: t => needle.isPrefixOf hay || containsSub needle t

/-- Digits to the number they denote (`int` on a digit string). -/
def digitsToNat (ds : List Char) : Nat :=
  ds.foldl (fun acc c => acc * 10 + (c.toNat - '0'.toNat)) 0

/-- Decimal digits of a natural number (helper for `str(n)` formatting);
the first argument is structural fuel, at least the number of digits. -/
def natDigitsAux : Nat → Nat → List Char
  | 0, _ => []
  | fuel + 1, n =>
    if n < 10 then [Char.ofNat ('0'.toNat + n)]
    else natDigitsAux fuel (n / 10) ++ [Char.ofNat ('0'.toNat + n % 10)]

/-- `str(n)` for a natural number. -/
def natStr (n : Nat) : List Char := natDigitsAux (n + 1) n

/-- `str(i)` for an integer. -/
def intStr (i : Int) : List Char :=
  if i < 0 then '-' :: natStr i.natAbs else natStr i.natAbs

/-- Zero-pad a numeral to a given width (for `%m`/`%d`/`%Y`). -/
def padNum (width n : Nat) : List Char :=
  let s := natStr n
  List.replicate (width - s.length) '0' ++ s

/-! # Rational arithmetic and formatting

Python floats are embedded as exact rationals.  The field operations of
`ℚ` are `@[irreducible]` in this toolchain, which would block kernel-style
evaluation of concrete runs, so the embedding uses the equivalent
`mkRat`-normalised forms below (each is the textbook num/den formula of the
corresponding rational operation). -/

/-- Rational addition: `a/b + c/d = (a*d + c*b) / (b*d)`. -/
def qAdd (a b : ℚ) : ℚ := mkRat (a.num * b.den + b.num * a.den) (a.den * b.den)

/-- Rational multiplication: `(a/b) * (c/d) = (a*c) / (b*d)`. -/
def qMul (a b : ℚ) : ℚ := mkRat (a.num * b.num) (a.den * b.den)

/-- Rational division: `(a/b) / (c/d) = (a*d) / (b*c)`, with the sign moved
to the numerator; division by zero yields zero as in `ℚ`. -/
def qDiv (a b : ℚ) : ℚ := mkRat (a.num * b.den * b.num.sign) (a.den * b.num.natAbs)

/-- `sum(...)` over rationals (left fold from zero, as Python's `sum`). -/
def qSum (l : List ℚ) : ℚ := l.foldl qAdd 0

/-- `f"{x:g}"`: integers print without a decimal point; other values print
their decimal expansion up to six fractional digits with trailing zeros
removed (every value exercised here is exact at that precision). -/
def formatG (q : ℚ) : List Char :=
  if q.den = 1 then intStr q.num
  else
    let sign : List Char := if q.num < 0 then ['-'] else []
    let a : Nat := q.num.natAbs
    let ip : Nat := a / q.den
    let scaled : Nat := a % q.den * 1000000 / q.den
    let ds := padNum 6 scaled
    let ds := stripEnd (fun c => c = '0') ds
    sign ++ natStr ip ++ '.' :: ds

/-- `f"{x:.1f}"`: round `10 * x` to the nearest integer with ties to even
(as float formatting does), then print with one decimal digit. -/
def format1f (q : ℚ) : List Char :=
  let t := qMul q 10
  let f : Int := Int.fdiv t.num t.den
  let r2 : Int := 2 * (t.num - f * t.den)
  let n : Int :=
    if r2 < (t.den : Int) then f
    else if (t.den : Int) < r2 then f + 1
    else if f % 2 = 0 then f else f + 1
  let sign : List Char := if n < 0 then ['-'] else []
  sign ++ natStr (n.natAbs / 10) ++ '.' :: natStr (n.natAbs % 10)

/-! # Calendar model (`datetime.date` / `datetime.datetime`) -/

/-- A calendar date. -/
structure Date where
  year : Nat
  month : Nat
  day : Nat
  deriving DecidableEq, Repr

/-- A timestamp with minute precision (seconds/microseconds are always
zeroed by the source). -/
structure Datetime where
  date : Date
  hour : Nat
  minute : Nat
  deriving DecidableEq, Repr

def isLeap (y : Nat) : Bool := y % 4 = 0 ∧ (y % 100 ≠ 0 ∨ y % 400 = 0)

def daysInMonth (y m : Nat) : Nat :=
  if m = 2 then (if isLeap y then 29 else 28)
  else if m = 4 ∨ m = 6 ∨ m = 9 ∨ m = 11 then 30
  else 31

/-- Validity of `datetime(year, month, day)`: Python accepts years 1..9999. -/
def validYMD (y m d : Nat) : Bool :=
  1 ≤ y ∧ y ≤ 9999 ∧ 1 ≤ m ∧ m ≤ 12 ∧ 1 ≤ d ∧ d ≤ daysInMonth y m

/-- `datetime(y, m, d)` at midnight; raises (`Except.error`) on an invalid
calendar date exactly as the Python constructor does. -/
def mkDatetime (y m d : Nat) : Except Unit Datetime :=
  if validYMD y m d then .ok ⟨⟨y, m, d⟩, 0, 0⟩ else .error ()

/-- `dt.replace(hour=h, minute=mi, second=0, microsecond=0)`; raises when
the hour or minute is out of range, as in Python. -/
def replaceTime (dt : Datetime) (h mi : Nat) : Except Unit Datetime :=
  if h ≤ 23 ∧ mi ≤ 59 then .ok ⟨dt.date, h, mi⟩ else .error ()

/-- Strict `<` on calendar dates (lexicographic, as Python compares dates). -/
def dateLt (a b : Date) : Bool :=
  a.year < b.year ∨
    (a.year = b.year ∧ (a.month < b.month ∨ (a.month = b.month ∧ a.day < b.day)))

/-- The day after a date (proleptic Gregorian; used to model
`date + timedelta(days=1)`). -/
def nextDay (d : Date) : Date :=
  if d.day < daysInMonth d.year d.month then ⟨d.year, d.month, d.day + 1⟩
  else if d.month < 12 then ⟨d.year, d.month + 1, 1⟩
  else ⟨d.year + 1, 1, 1⟩

/-- `d + timedelta(days=n)`. -/
def addDaysD (d : Date) : Nat → Date
  | 0 => d
  | n + 1 => nextDay (addDaysD d n)

/-- Rata-die style day number of a date (days-from-civil algorithm), used to
model subtraction of Python dates. -/
def ratDie (d : Date) : Int :=
  let y : Int := (d.year : Int) - (if d.month ≤ 2 then 1 else 0)
  let era : Int := (if 0 ≤ y then y else y - 399) / 400
  let yoe : Int := y - era * 400
  let mp : Int := ((d.month : Int) + 9) % 12
  let doy : Int := (153 * mp + 2) / 5 + (d.day : Int) - 1
  let doe : Int := yoe * 365 + yoe / 4 - yoe / 100 + doy
  era * 146097 + doe

/-- `(b - a).days` for Python dates. -/
def daysBetween (a b : Date) : Int := ratDie b - ratDie a

/-- `%Y-%m-%d` formatting. -/
def formatDateISO (d : Date) : List Char :=
  padNum 4 d.year ++ '-' :: (padNum 2 d.month ++ '-' :: padNum 2 d.day)

/-! # Fixed Korean vocabulary (tokens of `assistant.py`) -/

def kDayC : Char := '일'
def kMonthC : Char := '월'
def kHourC : Char := '시'
def kMinC : Char := '분'
def kAM : List Char := ['오', '전']
def kPM : List Char := ['오', '후']
def kHours : List Char := ['시', '간']
def kStudy : List Char := ['공', '부']
def kPlan : List Char := ['계', '획']
def kExam : List Char := ['시', '험']
def kCodingTest : List Char := ['코', '딩', '테', '스', '트']
def kDefaultTitle : List Char := ['일', '정']
def kDistribute : List Char := ['배', '분']
def kCountdown : List Char := ['역', '산']
def kSubject : List Char := ['과', '목']
def kUntil : List Char := ['까', '지']
def kPerDay : List Char := ['하', '루']
def kPage : List Char := ['페', '이', '지']
def kProblem : List Char := ['문', '제']
def kDaily : List Char := ['매', '일']
def generalStr : List Char := "General".toList

/-! # Pattern scanners

Each scanner plays the role of one of the source's compiled regular
expressions.  A position matcher has type `List Char → Option (Nat × α)`:
applied to a suffix of the text it reports a match starting there, returning
`n` for a match of `n + 1` characters (every pattern of the source consumes
at least one character) together with the captured data.  `searchVal`,
`finditer` and `subDel` then give `re.search`, `re.finditer` and
`re.sub(..., "")` semantics: leftmost scan, non-overlapping continuation. -/

/-- Leading whitespace-run length (`\s*`). -/
def wsLen (cs : List Char) : Nat := (cs.takeWhile isPyWs).length

/-- `\s*` then a literal character; total consumed length on success. -/
def matchCharAfterWs (lit : Char) (cs : List Char) : Option Nat :=
  let w := wsLen cs
  match cs.drop w with
  | c :: _ => if c = lit then some (w + 1) else none
  | [] => none

/-- Exactly `k` leading ASCII digits, returning their value. -/
def digitsPrefix (k : Nat) (cs : List Char) : Option Nat :=
  let ds := cs.take k
  if ds.length = k ∧ ds.all isPyDigit then some (digitsToNat ds) else none

/-- `(?P<day>\d{1,2})\s*일` — greedy two digits, then one. -/
def matchDayAt (cs : List Char) : Option (Nat × Nat) :=
  let att (k : Nat) : Option (Nat × Nat) :=
    match digitsPrefix k cs with
    | none => none
    | some v =>
      match matchCharAfterWs kDayC (cs.drop k) with
      | none => none
      | some w => some (k + w - 1, v)
  (att 2).orElse fun _ => att 1

/-- `(?P<d>\d{1,3})\s*일` of `parse_study_days`. -/
def matchStudyDaysAt (cs : List Char) : Option (Nat × Nat) :=
  let att (k : Nat) : Option (Nat × Nat) :=
    match digitsPrefix k cs with
    | none => none
    | some v =>
      match matchCharAfterWs kDayC (cs.drop k) with
      | none => none
      | some w => some (k + w - 1, v)
  ((att 3).orElse fun _ => att 2).orElse fun _ => att 1

/-- `(\d{1,2})\s*시(?:\s*(\d{1,2})\s*분)?` without the am/pm prefix:
consumed length, hour and optional minute. -/
def matchHourCore (cs : List Char) : Option (Nat × Nat × Option Nat) :=
  let att (k : Nat) : Option (Nat × Nat × Option Nat) :=
    match digitsPrefix k cs with
    | none => none
    | some v =>
      match matchCharAfterWs kHourC (cs.drop k) with
      | none => none
      | some w =>
        let base := k + w
        let rest := cs.drop base
        let minuteAtt (j : Nat) : Option (Nat × Nat) :=
          let w1 := wsLen rest
          match digitsPrefix j (rest.drop w1) with
          | none => none
          | some mv =>
            match matchCharAfterWs kMinC (rest.drop (w1 + j)) with
            | none => none
            | some w2 => some (w1 + j + w2, mv)
        match (minuteAtt 2).orElse fun _ => minuteAtt 1 with
        | some (mc, mv) => some (base + mc, v, some mv)
        | none => some (base, v, none)
  (att 2).orElse fun _ => att 1

/-- The full time pattern
`(?:(?P<ampm>오전|오후)\s*)?(?P<hour>\d{1,2})\s*시(?:\s*(?P<minute>\d{1,2})\s*분)?`.
Captured data: (am/pm marker as `Option Bool` with `true` = PM, hour, minute). -/
def matchTimeAt (cs : List Char) : Option (Nat × (Option Bool × Nat × Option Nat)) :=
  let tryTok (tok : List Char) (pm : Bool) : Option (Nat × (Option Bool × Nat × Option Nat)) :=
    if tok.isPrefixOf cs then
      let rest := cs.drop tok.length
      let w := wsLen rest
      match matchHourCore (rest.drop w) with
      | some (c, h, mi) => some (tok.length + w + c - 1, (some pm, h, mi))
      | none => none
    else none
  match (tryTok kAM false).orElse fun _ => tryTok kPM true with
  | some r => some r
  | none =>
    match matchHourCore cs with
    | some (c, h, mi) => some (c - 1, (none, h, mi))
    | none => none

def isSepC (c : Char) : Bool := c = '-' ∨ c = '.' ∨ c = '/'

/-- `(?P<y>\d{4})[-\.\/](?P<m>\d{1,2})[-\.\/](?P<d>\d{1,2})`. -/
def matchIsoAt (cs : List Char) : Option (Nat × (Nat × Nat × Nat)) :=
  match digitsPrefix 4 cs with
  | none => none
  | some y =>
    match cs.drop 4 with
    | s1 :: rest1 =>
      if isSepC s1 then
        let attM (k1 : Nat) : Option (Nat × (Nat × Nat × Nat)) :=
          match digitsPrefix k1 rest1 with
          | none => none
          | some m =>
            match rest1.drop k1 with
            | s2 :: rest2 =>
              if isSepC s2 then
                let attD (k2 : Nat) : Option (Nat × (Nat × Nat × Nat)) :=
                  match digitsPrefix k2 rest2 with
                  | some d => some (4 + 1 + k1 + 1 + k2 - 1, (y, m, d))
                  | none => none
                (attD 2).orElse fun _ => attD 1
              else none
            | [] => none
        (attM 2).orElse fun _ => attM 1
      else none
    | [] => none

/-- `(?P<m>\d{1,2})\s*월\s*(?P<d>\d{1,2})\s*일`. -/
def matchMdAt (cs : List Char) : Option (Nat × (Nat × Nat)) :=
  let attM (k1 : Nat) : Option (Nat × (Nat × Nat)) :=
    match digitsPrefix k1 cs with
    | none => none
    | some m =>
      match matchCharAfterWs kMonthC (cs.drop k1) with
      | none => none
      | some w1 =>
        let rest := cs.drop (k1 + w1)
        let w2 := wsLen rest
        let rest2 := rest.drop w2
        let attD (k2 : Nat) : Option (Nat × (Nat × Nat)) :=
          match digitsPrefix k2 rest2 with
          | none => none
          | some d =>
            match matchCharAfterWs kDayC (rest2.drop k2) with
            | none => none
            | some w3 => some (k1 + w1 + w2 + k2 + w3 - 1, (m, d))
        (attD 2).orElse fun _ => attD 1
  (attM 2).orElse fun _ => attM 1

/-- `\d+(?:\.\d+)?` as an exact rational (`float` of the matched text). -/
def matchNumber (cs : List Char) : Option (Nat × ℚ) :=
  let ds := cs.takeWhile isPyDigit
  if ds.length = 0 then none
  else
    let rest := cs.drop ds.length
    match rest with
    | '.' :: r2 =>
      let fs := r2.takeWhile isPyDigit
      if fs.length = 0 then some (ds.length, mkRat (digitsToNat ds) 1)
      else some (ds.length + 1 + fs.length,
                 mkRat (digitsToNat ds * 10 ^ fs.length + digitsToNat fs) (10 ^ fs.length))
    | _ => some (ds.length, mkRat (digitsToNat ds) 1)

/-- Subject-name characters `[A-Za-z가-힣]`. -/
def isSubjChar (c : Char) : Bool :=
  ('A' ≤ c ∧ c ≤ 'Z') ∨ ('a' ≤ c ∧ c ≤ 'z') ∨ ('가' ≤ c ∧ c ≤ '힣')

/-- `(?P<name>[A-Za-z가-힣]{1,12})\s*(?P<amount>\d+(?:\.\d+)?)\s*(?P<unit>시간|h|페이지|문제)?`.
Captured data: (name, amount, unit-is-hours).  Unit `시간` or `h` means hours;
a missing unit or `페이지`/`문제` means weight. -/
def matchSubjectAt (cs : List Char) : Option (Nat × (List Char × ℚ × Bool)) :=
  let run := cs.takeWhile isSubjChar
  if run.length = 0 ∨ 12 < run.length then none
  else
    let rest := cs.drop run.length
    let w1 := wsLen rest
    match matchNumber (rest.drop w1) with
    | none => none
    | some (nc, amt) =>
      let rest2 := rest.drop (w1 + nc)
      let w2 := wsLen rest2
      let rest3 := rest2.drop w2
      let unitLen : Option (Nat × Bool) :=
        if kHours.isPrefixOf rest3 then some (2, true)
        else if ['h'].isPrefixOf rest3 then some (1, true)
        else if kPage.isPrefixOf rest3 then some (3, false)
        else if kProblem.isPrefixOf rest3 then some (2, false)
        else none
      match unitLen with
      | some (ul, hrs) => some (run.length + w1 + nc + w2 + ul - 1, (run, amt, hrs))
      | none => some (run.length + w1 + nc + w2 - 1, (run, amt, false))

/-- `(?:하루\s*)?(?P<h>\d+(?:\.\d+)?)\s*시간` of `parse_daily_hours`. -/
def matchDailyHoursAt (cs : List Char) : Option (Nat × ℚ) :=
  let core (cs2 : List Char) : Option (Nat × ℚ) :=
    match matchNumber cs2 with
    | none => none
    | some (nc, v) =>
      let rest := cs2.drop nc
      let w := wsLen rest
      if kHours.isPrefixOf (rest.drop w) then some (nc + w + 2, v) else none
  let withPerDay : Option (Nat × ℚ) :=
    if kPerDay.isPrefixOf cs then
      let rest := cs.drop 2
      let w := wsLen rest
      match core (rest.drop w) with
      | some (c, v) => some (2 + w + c - 1, v)
      | none => none
    else none
  match withPerDay with
  | some r => some r
  | none =>
    match core cs with
    | some (c, v) => some (c - 1, v)
    | none => none

/-- `하루\s*(?P<h>\d+(?:\.\d+)?)\s*시간` of `create_exam_countdown_plan`
(mandatory `하루`). -/
def matchExamDailyAt (cs : List Char) : Option (Nat × ℚ) :=
  if kPerDay.isPrefixOf cs then
    let rest := cs.drop 2
    let w := wsLen rest
    match matchNumber (rest.drop w) with
    | none => none
    | some (nc, v) =>
      let rest2 := rest.drop (w + nc)
      let w2 := wsLen rest2
      if kHours.isPrefixOf (rest2.drop w2) then some (2 + w + nc + w2 + 2 - 1, v)
      else none
  else none

/-! ## Generic search / finditer / sub -/

/-- `re.search`, returning only the captured data of the leftmost match. -/
def searchVal (m : List Char → Option (Nat × α)) : List Char → Option α
  | [] => none
  | cs@(_ :: t) =>
    match m cs with
    | some (_, a) => some a
    | none => searchVal m t

/-- `re.finditer` with spans: (start, stop, data), non-overlapping,
left to right.  Fuel is the remaining length; every match consumes at
least one character so the fuel never runs out early. -/
def finditerAux (m : List Char → Option (Nat × α)) :
    Nat → Nat → List Char → List (Nat × Nat × α)
  | 0, _, _ => []
  | fuel + 1, pos, cs =>
    match m cs with
    | some (n, a) => (pos, pos + n + 1, a) :: finditerAux m fuel (pos + n + 1) (cs.drop (n + 1))
    | none =>
      match cs with
      | [] => []
      | _ :: t => finditerAux m fuel (pos + 1) t

def finditer (m : List Char → Option (Nat × α)) (cs : List Char) : List (Nat × Nat × α) :=
  finditerAux m cs.length 0 cs

/-- `re.sub(pattern, "", ·)`: delete every non-overlapping match. -/
def subDelAux (m : List Char → Option (Nat × α)) : Nat → List Char → List Char
  | 0, cs => cs
  | fuel + 1, cs =>
    match m cs with
    | some (n, _) => subDelAux m fuel (cs.drop (n + 1))
    | none =>
      match cs with
      | [] => []
      | c :: t => c :: subDelAux m fuel t

def subDel (m : List Char → Option (Nat × α)) (cs : List Char) : List Char :=
  subDelAux m cs.length cs

/-! # Data model (`ParsedEvent`, `SubjectLoad`, `ChatMemory`) -/

structure ParsedEvent where
  when : Datetime
  title : List Char
  deriving DecidableEq, Repr

/-- One subject's requested load.  The source stores the unit as the string
`"hours"` or `"weight"`; it is embedded as the boolean `unit_hours`
(`true` = hours, `false` = weight). -/
structure SubjectLoad where
  name : List Char
  amount : ℚ
  unit_hours : Bool
  deriving DecidableEq, Repr

structure ChatMemory where
  exam_date : Option Datetime := none
  subjects : Option (List (List Char)) := none
  daily_hours : Option ℚ := none
  study_goal : Option (List Char) := none
  study_days : Option Nat := none
  deriving DecidableEq, Repr

/-! # Date/time resolvers (`infer_date`, `infer_month_day`) -/

def infer_date (base : Datetime) (day : Nat) : Except Unit Datetime :=
  match mkDatetime base.date.year base.date.month day with
  | .error e => .error e
  | .ok candidate =>
    if dateLt candidate.date base.date then
      if base.date.month = 12 then mkDatetime (base.date.year + 1) 1 day
      else mkDatetime base.date.year (base.date.month + 1) day
    else .ok candidate

def infer_month_day (base : Datetime) (month day : Nat) : Except Unit Datetime :=
  match mkDatetime base.date.year month day with
  | .error e => .error e
  | .ok candidate =>
    if dateLt candidate.date base.date then mkDatetime (base.date.year + 1) month day
    else .ok candidate

/-! # Title normalizer (`normalize_title`) -/

/-- Leading-particle alternatives, in the source's alternation order. -/
def leadingParticles : List (List Char) :=
  [['에', '는'], ['은'], ['는'], ['이'], ['가'], ['을'], ['를'], ['에']]

/-- `re.sub(r"^(에는|은|는|이|가|을|를|에)\s*", "", ·)`. -/
def dropLeadingParticle (cs : List Char) : List Char :=
  match leadingParticles.find? (fun p => p.isPrefixOf cs) with
  | some p => (cs.drop p.length).dropWhile isPyWs
  | none => cs

def trailingAuxes : List (List Char) :=
  [['이', '야'], ['있', '어'], ['있', '고'], ['있', '습', '니', '다'], ['예', '정']]

/-- Does `(이야|있어|있고|있습니다|예정)\s*$` match starting at this suffix? -/
def auxMatchesHere (cs : List Char) : Bool :=
  trailingAuxes.any (fun a => a.isPrefixOf cs ∧ (cs.drop a.length).all isPyWs)

/-- `re.sub(r"(이야|있어|있고|있습니다|예정)\s*$", "", ·)`: cut the text at the
leftmost position from which an auxiliary ending spans (up to whitespace)
to the end. -/
def dropTrailingAux (cs : List Char) : List Char :=
  if auxMatchesHere cs then []
  else
    match cs with
    | [] => []
    | c :: t => c :: dropTrailingAux t

def trailingParticleChars : List Char := ['이', '가', '은', '는', '을', '를']

/-- `re.sub(r"(이|가|은|는|을|를)$", "", ·)`. -/
def dropTrailingParticle (cs : List Char) : List Char :=
  match cs.getLast? with
  | some c => if trailingParticleChars.contains c then cs.dropLast else cs
  | none => cs

def normalize_title (raw : List Char) : List Char :=
  let t1 := stripBoth isSpm raw
  let t2 := dropLeadingParticle t1
  let t3 := dropTrailingAux t2
  let t4 := pyStrip t3
  let t5 := dropTrailingParticle t4
  let t6 := stripBoth isSpm (collapseWs t5)
  if t6 = [] then kDefaultTitle else t6

/-! # Sentence-level parsers -/

/-- A search variant for matchers that only report a captured group
(no consumed length needed). -/
def searchGroup (m : List Char → Option α) : List Char → Option α
  | [] => none
  | cs@(_ :: t) =>
    match m cs with
    | some a => some a
    | none => searchGroup m t

def parse_exam_date (text : List Char) (now : Datetime) : Except Unit (Option Datetime) :=
  match searchVal matchIsoAt text with
  | some (y, m, d) =>
    match mkDatetime y m d with
    | .ok dt => .ok (some dt)
    | .error e => .error e
  | none =>
    match searchVal matchMdAt text with
    | some (m, d) =>
      match infer_month_day now m d with
      | .ok dt => .ok (some dt)
      | .error e => .error e
    | none =>
      match searchVal matchDayAt text with
      | some d =>
        if containsSub kExam text || containsSub kCodingTest text then
          match infer_date now d with
          | .ok dt => .ok (some dt)
          | .error e => .error e
        else .ok none
      | none => .ok none

def parse_generic_date (text : List Char) (now : Datetime) : Except Unit (Option Datetime) :=
  match searchVal matchIsoAt text with
  | some (y, m, d) =>
    match mkDatetime y m d with
    | .ok dt => .ok (some dt)
    | .error e => .error e
  | none =>
    match searchVal matchMdAt text with
    | some (m, d) =>
      match infer_month_day now m d with
      | .ok dt => .ok (some dt)
      | .error e => .error e
    | none =>
      match searchVal matchDayAt text with
      | some d =>
        match infer_date now d with
        | .ok dt => .ok (some dt)
        | .error e => .error e
      | none => .ok none

def has_explicit_exam_date (text : List Char) : Bool :=
  (searchVal matchIsoAt text).isSome ||
    (searchVal matchMdAt text).isSome ||
    ((containsSub kExam text || containsSub kCodingTest text) &&
      (searchVal matchDayAt text).isSome)

def parse_daily_hours (text : List Char) : Option ℚ :=
  match searchVal matchDailyHoursAt text with
  | none => none
  | some v => if 0 < v.num then some v else none

def parse_study_days (text : List Char) : Option Nat :=
  match searchVal matchStudyDaysAt text with
  | none => none
  | some v => if 0 < v then some v else none

/-- The `banned` name set of `parse_subject_loads`. -/
def bannedSubjectNames : List (List Char) :=
  [kExam, kCodingTest, kStudy, kPlan, [kDayC], [kMonthC], [kHourC], [kMinC],
    kHours, kPerDay, kDaily]

/-- Merge loads with the same name by summing amounts; a unit conflict turns
the merged unit into weight (`unit_hours = false`).  Insertion order is
preserved, matching Python dict iteration order. -/
def mergeLoads : List SubjectLoad → List SubjectLoad → List SubjectLoad
  | acc, [] => acc
  | acc, l :: rest =>
    if acc.any (fun e => e.name == l.name) then
      mergeLoads
        (acc.map fun e =>
          if e.name == l.name then
            { e with
              amount := qAdd e.amount l.amount,
              unit_hours := if e.unit_hours = l.unit_hours then e.unit_hours else false }
          else e)
        rest
    else mergeLoads (acc ++ [l]) rest

def parse_subject_loads (text : List Char) : List SubjectLoad :=
  let loads := (finditer matchSubjectAt text).filterMap fun x =>
    let (name, amount, hrs) := x.2.2
    if bannedSubjectNames.contains name then none
    else if amount.num ≤ 0 then none
    else some ⟨name, amount, hrs⟩
  mergeLoads [] loads

/-- `re.split(r"[,\s]+", ·)` restricted to its nonempty pieces (the source
discards the empty pieces right away). -/
def isSplitSep (c : Char) : Bool := c = ',' ∨ isPyWs c

def wordRunsAux : Nat → List Char → List (List Char)
  | 0, _ => []
  | _ + 1, [] => []
  | fuel + 1, c :: t =>
    if isSplitSep c then wordRunsAux fuel t
    else
      let run := (c :: t).takeWhile (fun x => ¬ isSplitSep x)
      run :: wordRunsAux fuel ((c :: t).drop run.length)

def wordRuns (cs : List Char) : List (List Char) := wordRunsAux cs.length cs

/-- The filtered token list of `infer_subjects_without_amount` before the
`[:8]` truncation: split on commas/whitespace, strip `" ,."`, keep tokens
fully matching `^[A-Za-z가-힣]{1,12}$`. -/
def subject_tokens (body : List Char) : List (List Char) :=
  let tokens := ((wordRuns body).map (stripBoth isSpm)).filter (fun t => ¬ t.isEmpty)
  tokens.filter fun t => 1 ≤ t.length ∧ t.length ≤ 12 ∧ t.all isSubjChar

/-- Try `\s*` munch lengths for `과목\s*(?P<body>.+)` from `n` down to `0`:
the body is the greedy `.+` (up to a newline or the end) from the chosen
offset; an offset whose next character is a newline (or absent) fails. -/
def bodyAttempt (rest : List Char) : Nat → Option (List Char)
  | 0 =>
    (match rest with
      | c :: _ => if c = '\n' then none else some (rest.takeWhile (fun x => x ≠ '\n'))
      | [] => none)
  | n + 1 =>
    (match rest.drop (n + 1) with
      | c :: _ =>
        if c = '\n' then bodyAttempt rest n
        else some ((rest.drop (n + 1)).takeWhile (fun x => x ≠ '\n'))
      | [] => bodyAttempt rest n)

/-- Position matcher for `과목\s*(?P<body>.+)`, returning the body group. -/
def matchSubjectBodyAt (cs : List Char) : Option (List Char) :=
  if kSubject.isPrefixOf cs then bodyAttempt (cs.drop 2) (wsLen (cs.drop 2))
  else none

def infer_subjects_without_amount (text : List Char) : List (List Char) :=
  if ¬ containsSub kSubject text then []
  else
    match searchGroup matchSubjectBodyAt text with
    | none => []
    | some body => (subject_tokens body).take 8

/-! # Study-goal extraction (`extract_study_goal`) -/

def isGoalChar (c : Char) : Bool := ¬ (isPyWs c ∨ c = ',' ∨ c = '.')

/-- Second-token attempt of `([^\s,\.]+(?:\s+[^\s,\.]+)?)\s*공부`, token
lengths tried greedily from `m` down to `1`. -/
def goalTryLen2 (tok1 wchars rest2 : List Char) : Nat → Option (List Char)
  | 0 => none
  | m + 1 =>
    let tok2 := rest2.take (m + 1)
    let after := rest2.drop (m + 1)
    let w2 := wsLen after
    if kStudy.isPrefixOf (after.drop w2) then some (tok1 ++ wchars ++ tok2)
    else goalTryLen2 tok1 wchars rest2 m

/-- First-token attempt, lengths tried greedily from `n` down to `1`;
for each first token the optional second token is tried before the
empty option, as the regex engine does. -/
def goalTryLen1 (cs : List Char) : Nat → Option (List Char)
  | 0 => none
  | n + 1 =>
    let tok1 := cs.take (n + 1)
    let after := cs.drop (n + 1)
    let w := after.takeWhile isPyWs
    let withSecond : Option (List Char) :=
      if w.length = 0 then none
      else
        let rest2 := after.drop w.length
        let run2 := rest2.takeWhile isGoalChar
        goalTryLen2 tok1 w rest2 run2.length
    match withSecond with
    | some g => some g
    | none =>
      if kStudy.isPrefixOf (after.drop w.length) then some tok1
      else goalTryLen1 cs n

/-- Position matcher for the goal pattern, returning group 1. -/
def matchGoalAt (cs : List Char) : Option (List Char) :=
  goalTryLen1 cs (cs.takeWhile isGoalChar).length

def extract_study_goal (text : List Char) : List Char :=
  match searchGroup matchGoalAt text with
  | some g =>
    let goal := pyStrip g
    if ¬ goal.isEmpty then goal else generalStr
  | none => generalStr

/-! # Event extractor (`parse_events_korean`,
`create_events_with_explicit_month_date`) -/

/-- The inner time loop of `parse_events_korean` over one day segment,
carrying `prev_hour_24` for the AM/PM carry heuristic. -/
def resolveSegmentTimes (base_day : Datetime) (segment : List Char) :
    List (Nat × Nat × (Option Bool × Nat × Option Nat)) → Option Nat →
      Except Unit (List ParsedEvent)
  | [], _ => .ok []
  | (_, e, (ampm, hourRaw, minuteOpt)) :: rest, prev =>
    let minute := minuteOpt.getD 0
    let h1 := if ampm = some true ∧ hourRaw < 12 then hourRaw + 12 else hourRaw
    let h2 := if ampm = some false ∧ h1 = 12 then 0 else h1
    let h3 :=
      match ampm, prev with
      | none, some p => if h2 ≤ p ∧ h2 < 12 then h2 + 12 else h2
      | _, _ => h2
    let title_end := match rest with | (s2, _, _) :: _ => s2 | [] => segment.length
    let title := normalize_title ((segment.drop e).take (title_end - e))
    match replaceTime base_day h3 minute with
    | .error er => .error er
    | .ok whn =>
      match resolveSegmentTimes base_day segment rest (some h3) with
      | .error er => .error er
      | .ok evs => .ok (⟨whn, title⟩ :: evs)

/-- The outer day-segment loop of `parse_events_korean`. -/
def processSegments (cleaned : List Char) (now : Datetime) :
    List (Nat × Nat × Nat) → Except Unit (List ParsedEvent)
  | [] => .ok []
  | (_, e, day) :: rest =>
    let segEnd := match rest with | (s2, _, _) :: _ => s2 | [] => cleaned.length
    let segment := stripBoth isSpm ((cleaned.drop e).take (segEnd - e))
    match infer_date now day with
    | .error er => .error er
    | .ok base_day =>
      match finditer matchTimeAt segment with
      | [] =>
        (match replaceTime base_day 9 0 with
          | .error er => .error er
          | .ok whn =>
            match processSegments cleaned now rest with
            | .error er => .error er
            | .ok evs => .ok (⟨whn, normalize_title segment⟩ :: evs))
      | tms =>
        match resolveSegmentTimes base_day segment tms none with
        | .error er => .error er
        | .ok evs1 =>
          match processSegments cleaned now rest with
          | .error er => .error er
          | .ok evs2 => .ok (evs1 ++ evs2)

def parse_events_korean (text : List Char) (now : Datetime) :
    Except Unit (List ParsedEvent) :=
  let cleaned := pyStrip (text.map fun c => if c = '\n' then ' ' else c)
  processSegments cleaned now (finditer matchDayAt cleaned)

/-- The per-time loop of `create_events_with_explicit_month_date`: unlike
`resolveSegmentTimes` the source keeps no `prev_hour_24` here, so only the
explicit AM/PM marker of each token is applied. -/
def explicitTimesLoop (base : Datetime) (body : List Char) :
    List (Nat × Nat × (Option Bool × Nat × Option Nat)) →
      Except Unit (List ParsedEvent)
  | [] => .ok []
  | (_, e, (ampm, hourRaw, minuteOpt)) :: rest =>
    let minute := minuteOpt.getD 0
    let h1 := if ampm = some true ∧ hourRaw < 12 then hourRaw + 12 else hourRaw
    let h2 := if ampm = some false ∧ h1 = 12 then 0 else h1
    let title_end := match rest with | (s2, _, _) :: _ => s2 | [] => body.length
    let title := normalize_title ((body.drop e).take (title_end - e))
    match replaceTime base h2 minute with
    | .error er => .error er
    | .ok whn =>
      match explicitTimesLoop base body rest with
      | .error er => .error er
      | .ok evs => .ok (⟨whn, title⟩ :: evs)

/-- Resolution of an hour token of `create_events_with_explicit_month_date`
from the token's own data alone: the `오후`/`오전` adjustments the source
applies to each match, with no other input. -/
def ownHour : Option Bool × Nat × Option Nat → Nat
  | (ampm, hourRaw, _) =>
    let h1 := if ampm = some true ∧ hourRaw < 12 then hourRaw + 12 else hourRaw
    if ampm = some false ∧ h1 = 12 then 0 else h1

def create_events_with_explicit_month_date (text : List Char) (now : Datetime) :
    Except Unit (List ParsedEvent) :=
  match parse_generic_date text now with
  | .error er => .error er
  | .ok none => .ok []
  | .ok (some base) =>
    let body := subDel matchIsoAt text
    let body := subDel matchMdAt body
    let body := stripBoth isSpm body
    match finditer matchTimeAt body with
    | [] =>
      let title := if ¬ body.isEmpty then normalize_title body else kDefaultTitle
      (match replaceTime base 9 0 with
        | .error er => .error er
        | .ok whn => .ok [⟨whn, title⟩])
    | ms => explicitTimesLoop base body ms

/-! # Planner — study plan (`create_study_plan_events`)

The phase cutoffs are `int(days * 0.6)` and `int(days * 0.85)` on Python
floats; they are embedded as the rational floors `days * 6 / 10` and
`days * 85 / 100`, which agree with the float computation at every parameter
value exercised below (for `days = 10`: `6` and `8`). -/

def create_study_plan_events (goal : List Char) (days : Nat) (daily_hours : ℚ)
    (now : Datetime) : List ParsedEvent :=
  (List.range days).map fun i =>
    let start_date := addDaysD now.date 1
    let day_date := addDaysD start_date i
    let whn : Datetime := ⟨⟨day_date.year, day_date.month, day_date.day⟩, 20, 0⟩
    let phase : List Char :=
      if i < days * 6 / 10 then "Concepts".toList
      else if i < days * 85 / 100 then "Practice".toList
      else "Review".toList
    { when := whn,
      title := "Study ".toList ++ goal ++ " - ".toList ++ phase
        ++ " (".toList ++ formatG daily_hours ++ "h)".toList }

/-! # Planner — exam countdown (`create_exam_countdown_plan`) -/

def joinSep (sep : List Char) : List (List Char) → List Char
  | [] => []
  | [x] => x
  | x :: xs => x ++ sep ++ joinSep sep xs

def create_exam_countdown_plan (text : List Char) (now : Datetime) :
    Except Unit (List ParsedEvent) :=
  match parse_exam_date text now with
  | .error er => .error er
  | .ok none => .ok []
  | .ok (some exam_dt) =>
    let days_left : Int := daysBetween now.date exam_dt.date
    if days_left ≤ 0 then .ok []
    else
      let daily_hours0 := (searchVal matchExamDailyAt text).getD 3
      let daily_hours := if daily_hours0.num ≤ 0 then 2 else daily_hours0
      let loads0 := parse_subject_loads text
      let loads :=
        if ¬ loads0.isEmpty then loads0
        else
          match infer_subjects_without_amount text with
          | [] => [⟨generalStr, 1, false⟩]
          | n :: ns => (n :: ns).map fun nm => ⟨nm, 1, false⟩
      let has_hours := loads.any fun l => l.unit_hours
      let dailyEvents := (List.range days_left.toNat).map fun k =>
        let day := addDaysD now.date (k + 1)
        let d_left : Int := daysBetween day exam_dt.date
        let allocations : List (List Char × ℚ) :=
          if has_hours then loads.map fun l => (l.name, qDiv l.amount (mkRat days_left 1))
          else
            let total_weight := qSum (loads.map fun l => l.amount)
            loads.map fun l => (l.name, qMul daily_hours (qDiv l.amount total_weight))
        let alloc_text :=
          joinSep " | ".toList (allocations.map fun a => a.1 ++ ' ' :: (format1f a.2 ++ ['h']))
        ParsedEvent.mk ⟨day, 20, 0⟩
          ("Exam D-".toList ++ intStr d_left ++ ": ".toList ++ alloc_text)
      let exam_title := "Exam Day (".toList ++ formatDateISO exam_dt.date ++ [')']
      .ok (dailyEvents ++ [⟨⟨exam_dt.date, 9, 0⟩, exam_title⟩])

def is_exam_distribution_request (text : List Char) : Bool :=
  (containsSub kExam text || containsSub kCodingTest text) &&
    (containsSub kDistribute text || containsSub kCountdown text ||
      containsSub kUntil text || containsSub kSubject text)

/-! # Event sink (`insert_events` over the SQLite `events` table)

Rows are kept in id order (ids come from a monotone `AUTOINCREMENT`
counter, so `ORDER BY id ASC` is insertion order).  The day filter
`substr(event_time, 1, 10) = day_key` is date equality on the zero-padded
ISO rendering, embedded directly as equality of calendar dates. -/

structure DBRow where
  id : Nat
  title : List Char
  time : Datetime
  notified : Bool
  deriving DecidableEq, Repr

structure DBState where
  rows : List DBRow
  nextId : Nat
  deriving DecidableEq, Repr

/-- Characters removed by the sink's `title_key` normalization
(`[\s\-\_\.\,\!\?\'\"\(\)\[\]\{\}]+`). -/
def isKeyPunct (c : Char) : Bool :=
  isPyWs c ∨ c = '-' ∨ c = '_' ∨ c = '.' ∨ c = ',' ∨ c = '!' ∨ c = '?' ∨
    c = '\x27' ∨ c = '\x22' ∨ c = '(' ∨ c = ')' ∨ c = '[' ∨ c = ']' ∨
    c = '\x7b' ∨ c = '\x7d'

/-- `title_key`: strip, lowercase, remove whitespace/punctuation. -/
def title_key (text : List Char) : List Char :=
  ((pyStrip text).map Char.toLower).filter fun c => ¬ isKeyPunct c

/-- Same calendar day and same normalized title. -/
def rowMatches (ev : ParsedEvent) (r : DBRow) : Bool :=
  decide (r.time.date = ev.when.date) && decide (title_key r.title = title_key ev.title)

/-- Update the first matching row (title, time, `notified = 0`) and delete
every later matching row of that day. -/
def updateFirstMatch (ev : ParsedEvent) : List DBRow → List DBRow
  | [] => []
  | r :: rs =>
    if rowMatches ev r then
      { r with title := ev.title, time := ev.when, notified := false } ::
        rs.filter fun r2 => ¬ rowMatches ev r2
    else r :: updateFirstMatch ev rs

/-- Processing of a single event by `insert_events`. -/
def insertEventStep (st : DBState) (ev : ParsedEvent) : DBState :=
  if st.rows.any (rowMatches ev) then { st with rows := updateFirstMatch ev st.rows }
  else { rows := st.rows ++ [⟨st.nextId, ev.title, ev.when, false⟩], nextId := st.nextId + 1 }

def insert_events (events : List ParsedEvent) (st : DBState) : DBState :=
  events.foldl insertEventStep st

/-! # Conversational memory (`update_chat_memory`, `apply_chat_memory`) -/

/-- `update_chat_memory` (the source mutates `memory` in place; embedded as
returning the new memory).  `parse_exam_date` is called first and can raise,
before any field is written — hence the `Except`.  The source then performs
five guarded assignments, each writing one distinct field from an extraction
of `text` alone, so the embedding assigns every field its final value in one
record. -/
def update_chat_memory (memory : ChatMemory) (text : List Char) (now : Datetime) :
    Except Unit ChatMemory :=
  match parse_exam_date text now with
  | .error er => .error er
  | .ok exam_opt =>
    .ok {
      exam_date :=
        match exam_opt with
        | some d => some d
        | none => memory.exam_date
      daily_hours :=
        match parse_daily_hours text with
        | some v => some v
        | none => memory.daily_hours
      study_days :=
        match parse_study_days text with
        | some v =>
          if containsSub kStudy text || containsSub kPlan text then some v
          else memory.study_days
        | none => memory.study_days
      study_goal :=
        if extract_study_goal text ≠ generalStr then some (extract_study_goal text)
        else memory.study_goal
      subjects :=
        match parse_subject_loads text with
        | [] =>
          (match infer_subjects_without_amount text with
            | [] => memory.subjects
            | n :: ns => some (n :: ns))
        | l :: ls => some ((l :: ls).map SubjectLoad.name) }

/-- `apply_chat_memory` (the unused `now` parameter of the source is
dropped).  Note the source returns `text.strip()`, not `text`. -/
def apply_chat_memory (text : List Char) (memory : ChatMemory) : List Char :=
  let merged := pyStrip text
  let merged :=
    if is_exam_distribution_request merged then
      let merged :=
        match memory.exam_date with
        | some ed =>
          if ¬ has_explicit_exam_date merged then
            merged ++ ", ".toList ++ natStr ed.date.month ++ kMonthC :: ' ' ::
              (natStr ed.date.day ++ kDayC :: ' ' :: (kExam ++ kUntil))
          else merged
        | none => merged
      let merged :=
        match memory.subjects with
        | some subs =>
          if ¬ subs.isEmpty ∧ parse_subject_loads merged = [] ∧
              infer_subjects_without_amount merged = [] then
            merged ++ ", ".toList ++ joinSep [' '] (subs.map fun nm => nm ++ [' ', '1'])
          else merged
        | none => merged
      let merged :=
        match memory.daily_hours with
        | some dh =>
          if parse_daily_hours merged = none then
            merged ++ ", ".toList ++ kPerDay ++ ' ' :: (formatG dh ++ kHours)
          else merged
        | none => merged
      merged
    else merged
  let is_study_request := containsSub kStudy merged || containsSub kPlan merged
  if is_study_request then
    let merged :=
      match memory.study_goal with
      | some g =>
        if ¬ g.isEmpty ∧ extract_study_goal merged = generalStr then
          if containsSub kStudy merged || containsSub kPlan merged then
            g ++ ' ' :: merged
          else g ++ kStudy ++ kPlan ++ ' ' :: merged
        else merged
      | none => merged
    let merged :=
      match memory.study_days with
      | some sd =>
        if parse_study_days merged = none then
          merged ++ ", ".toList ++ natStr sd ++ [kDayC]
        else merged
      | none => merged
    let merged :=
      match memory.daily_hours with
      | some dh =>
        if parse_daily_hours merged = none then
          merged ++ ", ".toList ++ kPerDay ++ ' ' :: (formatG dh ++ kHours)
        else merged
      | none => merged
    merged
  else merged

/-! # Soundness of the arithmetic embedding

The `mkRat`-based operations used throughout the embedding coincide with
the field operations of `ℚ`, so every rational computed by the definitions
above is the true rational value. -/

/-- A rational times its denominator is its numerator. -/
theorem rat_mul_den (b : ℚ) : b * (b.den : ℚ) = (b.num : ℚ) := by
  have hb' : ((b.den : ℚ)) ≠ 0 := by exact_mod_cast b.den_nz
  nth_rewrite 1 [← Rat.num_div_den b]
  exact div_mul_cancel₀ _ hb'

/-- `qAdd` is rational addition. -/
theorem qAdd_eq_add (a b : ℚ) : qAdd a b = a + b := by
  have ha : ((a.den : ℚ)) ≠ 0 := by exact_mod_cast a.den_nz
  have hb : ((b.den : ℚ)) ≠ 0 := by exact_mod_cast b.den_nz
  rw [qAdd, Rat.mkRat_eq_div]
  push_cast
  rw [div_eq_iff (mul_ne_zero ha hb), ← rat_mul_den a, ← rat_mul_den b]
  ring

/-- `qMul` is rational multiplication. -/
theorem qMul_eq_mul (a b : ℚ) : qMul a b = a * b := by
  have ha : ((a.den : ℚ)) ≠ 0 := by exact_mod_cast a.den_nz
  have hb : ((b.den : ℚ)) ≠ 0 := by exact_mod_cast b.den_nz
  rw [qMul, Rat.mkRat_eq_div]
  push_cast
  rw [div_eq_iff (mul_ne_zero ha hb), ← rat_mul_den a, ← rat_mul_den b]
  ring

/-- Quotient of cross-multiplied numerator and denominator data is rational
division (helper for `qDiv_eq_div`). -/
theorem ratNumDen_div (a b : ℚ) (hb : b.num ≠ 0) :
    ((a.num * b.den : ℚ)) / ((a.den * b.num : ℚ)) = a / b := by
  have ha' : ((a.den : ℚ)) ≠ 0 := by exact_mod_cast a.den_nz
  have hbn : ((b.num : ℚ)) ≠ 0 := by exact_mod_cast hb
  have hbne : b ≠ 0 := Rat.num_ne_zero.mp hb
  rw [div_eq_div_iff (mul_ne_zero ha' hbn) hbne, ← rat_mul_den a, ← rat_mul_den b]
  ring

/-- `qDiv` is rational division (including the `x / 0 = 0` convention). -/
theorem qDiv_eq_div (a b : ℚ) : qDiv a b = a / b := by
  rcases Int.lt_trichotomy b.num 0 with hneg | hz | hpos
  · have hs : b.num.sign = -1 := Int.sign_eq_neg_one_of_neg hneg
    have habsQ : ((b.num.natAbs : ℚ)) = -((b.num : ℚ)) := by
      rw [Int.cast_natAbs]
      exact_mod_cast abs_of_neg hneg
    rw [qDiv, hs, Rat.mkRat_eq_div]
    push_cast
    rw [habsQ,
        show ((a.num : ℚ)) * ((b.den : ℚ)) * (-1) = -(((a.num : ℚ)) * ((b.den : ℚ))) by ring,
        show ((a.den : ℚ)) * -((b.num : ℚ)) = -(((a.den : ℚ)) * ((b.num : ℚ))) by ring,
        neg_div_neg_eq]
    exact ratNumDen_div a b (Int.ne_of_lt hneg)
  · have hb0 : b = 0 := Rat.num_eq_zero.mp hz
    subst hb0
    simp [qDiv, Rat.mkRat_eq_div]
  · have hs : b.num.sign = 1 := Int.sign_eq_one_of_pos hpos
    have habsQ : ((b.num.natAbs : ℚ)) = ((b.num : ℚ)) := by
      rw [Int.cast_natAbs]
      exact_mod_cast abs_of_pos hpos
    rw [qDiv, hs, Rat.mkRat_eq_div]
    push_cast
    rw [habsQ, mul_one]
    exact ratNumDen_div a b (Int.ne_of_gt hpos)

/-- `qSum` is the rational sum of the list. -/
theorem qSum_eq_sum (l : List ℚ) : qSum l = l.sum := by
  have key : ∀ (l : List ℚ) (q : ℚ), l.foldl qAdd q = q + l.sum := by
    intro l
    induction l with
    | nil => intro q; simp
    | cons x xs ih =>
      intro q
      simp only [List.foldl_cons, List.sum_cons, ih, qAdd_eq_add]
      ring
  simpa using key l 0

/-! # Claim theorems -/

set_option maxRecDepth 40000
set_option maxHeartbeats 4000000

/-- Fixed reference instants used by concrete computations below. -/
def refNow : Datetime := ⟨⟨2026, 6, 27⟩, 8, 0⟩

def refNowJan : Datetime := ⟨⟨2026, 1, 15⟩, 8, 0⟩

/-- Claim C4 input: weights Math 40 / English 30 / Korean 30, 4 hours per
day, exam date three days after `refNow`. -/
def examText : List Char :=
  "6월 30일 시험까지 역산, Math 40 English 30 Korean 30, 하루 4시간".toList

/-- Claim C4 (confirmed): for the exam-countdown input with WEIGHT subject
loads Math 40 / English 30 / Korean 30, daily hours 4 and an exam three days
after the reference instant, the planner emits exactly four events: one per
day at 20:00 with allocations `Math 1.6h | English 1.2h | Korean 1.2h`
(4 × weight fraction, one decimal), plus the exam-day event at 09:00. -/
theorem exam_countdown_weighted_spec :
    create_exam_countdown_plan examText refNow =
      .ok [⟨⟨⟨2026, 6, 28⟩, 20, 0⟩,
              "Exam D-2: Math 1.6h | English 1.2h | Korean 1.2h".toList⟩,
           ⟨⟨⟨2026, 6, 29⟩, 20, 0⟩,
              "Exam D-1: Math 1.6h | English 1.2h | Korean 1.2h".toList⟩,
           ⟨⟨⟨2026, 6, 30⟩, 20, 0⟩,
              "Exam D-0: Math 1.6h | English 1.2h | Korean 1.2h".toList⟩,
           ⟨⟨⟨2026, 6, 30⟩, 9, 0⟩, "Exam Day (2026-06-30)".toList⟩] := by
  rfl

/-- Claim C1 counterexample: at zero-based day index 8 of the 10-day English
plan the source emits phase `Review` (the cutoff `int(10*0.85) = 8` is an
exclusive bound, so `Practice` covers indices 6–7 only), while the claim
asserts `Practice` for indices 6 through 8. -/
theorem study_plan_phase_counterexample :
    ((create_study_plan_events ("English".toList) 10 2 refNow).map
        (fun e => e.title))[8]? = some ("Study English - Review (2h)".toList) ∧
      "Study English - Review (2h)".toList ≠ "Study English - Practice (2h)".toList := by
  exact ⟨by rfl, by decide⟩

theorem addDaysD_one_add (d : Date) (i : Nat) :
    addDaysD (addDaysD d 1) i = addDaysD d (i + 1) := by
  induction i with
  | zero => rfl
  | succ n ih => exact congrArg nextDay ih

/-- Claim C1 (amended): for goal `English`, 10 days, 2 daily hours and any
reference instant, the generator emits exactly 10 events, one per
consecutive day starting the day after `now`, each at 20:00, with phase
`Concepts` for zero-based indices 0–5, `Practice` for 6–7 and `Review` for
8–9 (the floors `int(10*0.6) = 6` and `int(10*0.85) = 8` act as exclusive
cutoffs on the zero-based index). -/
theorem study_plan_events_amended (now : Datetime) (i : Nat) (h : i < 10) :
    (create_study_plan_events ("English".toList) 10 2 now).length = 10 ∧
    (create_study_plan_events ("English".toList) 10 2 now)[i]? =
      some ⟨⟨addDaysD now.date (i + 1), 20, 0⟩,
        "Study English - ".toList ++
          (if i < 6 then "Concepts".toList
           else if i < 8 then "Practice".toList
           else "Review".toList) ++ " (2h)".toList⟩ := by
  refine ⟨rfl, ?_⟩
  have hr : (List.range 10)[i]? = some i := by
    simp [List.getElem?_range, h]
  simp only [create_study_plan_events, List.getElem?_map, hr, Option.map_some',
    addDaysD_one_add]
  simp [List.append_assoc, show formatG 2 = ['2'] from rfl]

/-- Witness for `study_plan_events_amended` at a concrete instant and at the
index the original claim got wrong. -/
theorem study_plan_events_amended_witness :
    (create_study_plan_events ("English".toList) 10 2 refNow).length = 10 ∧
    (create_study_plan_events ("English".toList) 10 2 refNow)[8]? =
      some ⟨⟨⟨2026, 7, 6⟩, 20, 0⟩, "Study English - Review (2h)".toList⟩ :=
  study_plan_events_amended refNow 8 (by decide)

/-- Claim C2 input: an explicit month-day date followed by two hour tokens,
the second lower than the first and unmarked. -/
def explicitText : List Char := "3월 5일 9시 회의, 1시 발표".toList

/-- Claim C2 counterexample: after an explicit month-day date, the source's
explicit-date extractor resolves `9시 … 1시` to 09:00 and 01:00 — it keeps no
`prev_hour_24`, so the AM/PM carry heuristic the claim asserts never fires
(it would have produced 13:00).  The same sentence shape under the
day-segment loop (`parse_events_korean`) does carry: 09:00 and 13:00. -/
theorem explicit_date_no_carry_counterexample :
    ((create_events_with_explicit_month_date explicitText refNowJan).map
        fun es => es.map fun e => e.when.hour) = .ok [9, 1] ∧
      ([9, 1] : List Nat) ≠ [9, 13] ∧
      ((parse_events_korean ("20일 9시 회의, 1시 발표".toList) refNow).map
        fun es => es.map fun e => e.when.hour) = .ok [9, 13] := by
  exact ⟨rfl, by decide, rfl⟩

/-- Inversion for `replaceTime`: a successful replacement carries exactly
the requested hour. -/
theorem replaceTime_ok_hour {dt : Datetime} {h mi : Nat} {w : Datetime}
    (hw : replaceTime dt h mi = .ok w) : w.hour = h := by
  unfold replaceTime at hw
  split at hw
  · cases hw; rfl
  · exact Except.noConfusion hw

/-- Statelessness of the explicit-date time loop: the hours of the produced
events are the pointwise `ownHour` of the matches — no value flows from one
match to the next. -/
theorem explicitTimesLoop_hours (base : Datetime) (body : List Char)
    (ms : List (Nat × Nat × (Option Bool × Nat × Option Nat))) :
    ∀ es, explicitTimesLoop base body ms = .ok es →
      es.map (fun e => e.when.hour) = ms.map (fun m => ownHour m.2.2) := by
  induction ms with
  | nil =>
    intro es h
    simp only [explicitTimesLoop] at h
    cases h
    rfl
  | cons m rest ih =>
    obtain ⟨s, e, ampm, hr, mi⟩ := m
    intro es h
    simp only [explicitTimesLoop] at h
    split at h
    · exact Except.noConfusion h
    · rename_i whn hwt
      split at h
      · exact Except.noConfusion h
      · rename_i evs hrec
        cases h
        simp only [List.map_cons, ownHour]
        exact congrArg₂ (· :: ·) (replaceTime_ok_hour hwt) (ih evs hrec)

/-- Claim C2 (amended): for every sentence that carries an explicit
month-day or ISO date (so generic-date resolution yields a base date) and
two or more hour tokens, whenever the explicit-date extractor returns
events, each event's hour is resolved from its own token's AM/PM marker
alone (`ownHour`), and in particular a later hour token with no AM/PM
marker keeps its raw hour — no carry from the previously resolved hour ever
happens, unlike the day-segment loop. -/
theorem explicit_date_hours_amended (text : List Char) (now : Datetime)
    (base : Datetime) (ms : List (Nat × Nat × (Option Bool × Nat × Option Nat)))
    (es : List ParsedEvent)
    (hbase : parse_generic_date text now = .ok (some base))
    (hms : finditer matchTimeAt
        (stripBoth isSpm (subDel matchMdAt (subDel matchIsoAt text))) = ms)
    (hlen : 2 ≤ ms.length)
    (hok : create_events_with_explicit_month_date text now = .ok es) :
    es.map (fun e => e.when.hour) = ms.map (fun m => ownHour m.2.2) ∧
      ∀ (i s e hr : Nat) (mi : Option Nat),
        ms[i]? = some (s, e, ((none : Option Bool), hr, mi)) →
          (es.map fun e => e.when.hour)[i]? = some hr := by
  unfold create_events_with_explicit_month_date at hok
  rw [hbase] at hok
  simp only [hms] at hok
  cases ms with
  | nil => exact absurd hlen (by decide)
  | cons m rest =>
    have hmap := explicitTimesLoop_hours base _ _ es hok
    refine ⟨hmap, ?_⟩
    intro i s e hr mi hi
    rw [hmap]
    simp only [List.getElem?_map, hi, Option.map_some]
    simp [ownHour]

/-- Concrete time-match list of the claim C2 input's body (two unmarked
hour tokens, 9 then 1). -/
def explicitMs : List (Nat × Nat × (Option Bool × Nat × Option Nat)) :=
  [(0, 2, (none, 9, none)), (7, 9, (none, 1, none))]

/-- Concrete events the extractor produces on the claim C2 input. -/
def explicitEs : List ParsedEvent :=
  [⟨⟨⟨2026, 3, 5⟩, 9, 0⟩, "회의".toList⟩, ⟨⟨⟨2026, 3, 5⟩, 1, 0⟩, "발표".toList⟩]

/-- Witness for `explicit_date_hours_amended` at the concrete input: the
second, unmarked hour token (raw hour 1, below the previously resolved 9)
comes out as hour 1. -/
theorem explicit_date_hours_amended_witness :
    (explicitEs.map fun e => e.when.hour) = explicitMs.map (fun m => ownHour m.2.2) ∧
      (explicitEs.map fun e => e.when.hour)[1]? = some 1 := by
  have h := explicit_date_hours_amended explicitText refNowJan ⟨⟨2026, 3, 5⟩, 0, 0⟩
      explicitMs explicitEs rfl rfl (by decide) rfl
  exact ⟨h.1, h.2 1 7 9 1 none rfl⟩

/-- Claim C3 counterexample: the parsing pipeline is not total.  Sentences
naming a calendar-invalid date make generic-date resolution raise
(`Except.error`, the embedded `ValueError` of the `datetime` constructor)
instead of returning an empty result: month 13, February 30, and a bare
`31일` while the reference month (June) has 30 days.  And even with fully
constructible dates the day-segment parser raises on an out-of-range hour
token: `20일 99시` reaches `replace(hour=99)`. -/
theorem invalid_date_raises_counterexample :
    parse_generic_date ("2026-13-01".toList) refNow = .error () ∧
    parse_generic_date ("2월 30일".toList) refNow = .error () ∧
    parse_generic_date ("31일".toList) refNow = .error () ∧
    parse_events_korean ("20일 99시 회의".toList) refNow = .error () := by
  exact ⟨rfl, rfl, rfl, rfl⟩

/-- Claim C3 (amended): `parse_generic_date` — the date resolver the
pipeline dispatches on — returns a result (possibly `none`) and never
raises, provided each date pattern it matches resolves to a constructible
calendar date.  Totality stops there: a calendar-invalid match raises (see
the counterexample), and the downstream day-segment parser can still raise
on out-of-range hour tokens even when every matched date is
constructible. -/
theorem generic_date_total_amended (text : List Char) (now : Datetime)
    (h1 : ∀ y m d, searchVal matchIsoAt text = some (y, m, d) → validYMD y m d = true)
    (h2 : ∀ m d, searchVal matchMdAt text = some (m, d) →
      ∃ c, infer_month_day now m d = .ok c)
    (h3 : ∀ d, searchVal matchDayAt text = some d → ∃ c, infer_date now d = .ok c) :
    ∃ r, parse_generic_date text now = .ok r := by
  unfold parse_generic_date
  cases hiso : searchVal matchIsoAt text with
  | some v =>
    obtain ⟨y, m, d⟩ := v
    have hv := h1 y m d hiso
    simp [mkDatetime, hv]
  | none =>
    cases hmd : searchVal matchMdAt text with
    | some v =>
      obtain ⟨m, d⟩ := v
      obtain ⟨c, hc⟩ := h2 m d hmd
      simp [hc]
    | none =>
      cases hday : searchVal matchDayAt text with
      | some d =>
        obtain ⟨c, hc⟩ := h3 d hday
        simp [hc]
      | none => simp

/-- The witness sentence for `generic_date_total_amended`. -/
def mdText : List Char := "3월 5일".toList

/-- Witness for `generic_date_total_amended` on a sentence whose matched
month-day and bare-day patterns both resolve to valid dates. -/
theorem generic_date_total_amended_witness :
    ∃ r, parse_generic_date mdText refNow = .ok r :=
  generic_date_total_amended mdText refNow
    (fun y m d h => by
      simp [show searchVal matchIsoAt mdText = none from rfl] at h)
    (fun m d h => by
      simp only [show searchVal matchMdAt mdText = some (3, 5) from rfl,
        Option.some.injEq, Prod.mk.injEq] at h
      obtain ⟨rfl, rfl⟩ := h
      exact ⟨⟨⟨2027, 3, 5⟩, 0, 0⟩, rfl⟩)
    (fun d h => by
      simp only [show searchVal matchDayAt mdText = some 5 from rfl,
        Option.some.injEq] at h
      subst h
      exact ⟨⟨⟨2026, 7, 5⟩, 0, 0⟩, rfl⟩)

/-- Inversion for the embedded `datetime` constructor. -/
theorem mkDatetime_ok {y m d : Nat} {c : Datetime} (h : mkDatetime y m d = .ok c) :
    c = ⟨⟨y, m, d⟩, 0, 0⟩ := by
  unfold mkDatetime at h
  split at h
  · exact (Except.ok.inj h).symm
  · cases h

/-- Claim C7 (confirmed): whenever `infer_date` returns without raising, the
returned timestamp's calendar date is not strictly before the base's
calendar date: an in-month candidate that precedes the base rolls to the
same day-of-month of the next month (January of the next year after
December). -/
theorem infer_date_not_before_base (base : Datetime) (day : Nat) (c : Datetime)
    (h : infer_date base day = .ok c) : dateLt c.date base.date = false := by
  unfold infer_date at h
  cases hmk : mkDatetime base.date.year base.date.month day with
  | error e => simp only [hmk] at h; exact Except.noConfusion h
  | ok cand =>
    simp only [hmk] at h
    have hcand := mkDatetime_ok hmk
    subst hcand
    split at h
    · split at h
      · have hc := mkDatetime_ok h
        subst hc
        simp only [dateLt, decide_eq_false_iff_not]
        push_neg
        omega
      · have hc := mkDatetime_ok h
        subst hc
        simp only [dateLt, decide_eq_false_iff_not]
        push_neg
        omega
    · next hlt =>
      obtain rfl := Except.ok.inj h
      simp only [Bool.not_eq_true] at hlt
      exact hlt

/-- Witness for `infer_date_not_before_base`: day 5 against June 27 rolls to
July 5, which is not before the base date. -/
theorem infer_date_not_before_base_witness :
    dateLt (⟨⟨2026, 7, 5⟩, 0, 0⟩ : Datetime).date refNow.date = false ∧
    infer_date refNow 5 = .ok ⟨⟨2026, 7, 5⟩, 0, 0⟩ :=
  ⟨infer_date_not_before_base refNow 5 ⟨⟨2026, 7, 5⟩, 0, 0⟩ rfl, rfl⟩

/-- Claim C8 counterexample: merging against the empty memory does not
return the input unchanged when the input carries surrounding whitespace —
the source begins with `text.strip()`. -/
theorem apply_memory_strip_counterexample :
    apply_chat_memory (" 회의 ".toList) {} ≠ (" 회의 ".toList) ∧
    apply_chat_memory (" 회의 ".toList) {} = "회의".toList := by
  exact ⟨by decide, rfl⟩

/-- Claim C8 (amended): merging any sentence against an empty conversational
memory (all fields absent) returns the sentence stripped of surrounding
whitespace and nothing else: no augmentation branch fabricates an exam date,
subject list, daily hours, study goal or study days that memory does not
hold. -/
theorem apply_memory_empty_amended (text : List Char) :
    apply_chat_memory text {} = pyStrip text := by
  simp [apply_chat_memory]

/-- The frame property of `update_chat_memory` (claim C9): each memory field
is overwritten exactly when the sentence yields a successful extraction for
it, is kept otherwise, and a field that was set is never cleared back to
absent. -/
def UpdateFrameProp (memory : ChatMemory) (text : List Char) (now : Datetime)
    (m' : ChatMemory) : Prop :=
  (parse_exam_date text now = .ok none → m'.exam_date = memory.exam_date) ∧
  (∀ d, parse_exam_date text now = .ok (some d) → m'.exam_date = some d) ∧
  (parse_daily_hours text = none → m'.daily_hours = memory.daily_hours) ∧
  (∀ v, parse_daily_hours text = some v → m'.daily_hours = some v) ∧
  ((parse_study_days text = none ∨
      (containsSub kStudy text = false ∧ containsSub kPlan text = false)) →
    m'.study_days = memory.study_days) ∧
  (∀ v, parse_study_days text = some v →
    (containsSub kStudy text = true ∨ containsSub kPlan text = true) →
    m'.study_days = some v) ∧
  (extract_study_goal text = generalStr → m'.study_goal = memory.study_goal) ∧
  (extract_study_goal text ≠ generalStr →
    m'.study_goal = some (extract_study_goal text)) ∧
  (parse_subject_loads text = [] → infer_subjects_without_amount text = [] →
    m'.subjects = memory.subjects) ∧
  (parse_subject_loads text ≠ [] →
    m'.subjects = some ((parse_subject_loads text).map SubjectLoad.name)) ∧
  (parse_subject_loads text = [] → infer_subjects_without_amount text ≠ [] →
    m'.subjects = some (infer_subjects_without_amount text)) ∧
  (memory.exam_date.isSome → m'.exam_date.isSome) ∧
  (memory.daily_hours.isSome → m'.daily_hours.isSome) ∧
  (memory.study_days.isSome → m'.study_days.isSome) ∧
  (memory.study_goal.isSome → m'.study_goal.isSome) ∧
  (memory.subjects.isSome → m'.subjects.isSome)

/-- Claim C9 (confirmed): whenever the learn operation returns (it can only
raise out of `parse_exam_date`, before any field is written), the new memory
satisfies the frame property `UpdateFrameProp`. -/
theorem update_chat_memory_frame (memory : ChatMemory) (text : List Char)
    (now : Datetime) (m' : ChatMemory)
    (h : update_chat_memory memory text now = .ok m') :
    UpdateFrameProp memory text now m' := by
  unfold update_chat_memory at h
  cases hex : parse_exam_date text now with
  | error e => simp only [hex] at h; exact Except.noConfusion h
  | ok exam_opt =>
    simp only [hex] at h
    obtain rfl : _ = m' := Except.ok.inj h
    refine ⟨fun hn => ?_, fun d hd => ?_, fun hn => ?_, fun v hv => ?_,
      fun hor => ?_, fun v hv hm => ?_, fun hgen => ?_, fun hgen => ?_,
      fun hl hs => ?_, fun hl => ?_, fun hl hs => ?_,
      fun hm => ?_, fun hm => ?_, fun hm => ?_, fun hm => ?_, fun hm => ?_⟩
    · rw [hex] at hn; injection hn with hn; subst hn; rfl
    · rw [hex] at hd; injection hd with hd; subst hd; rfl
    · simp only [hn]
    · simp only [hv]
    · rcases hor with hn | ⟨ha, hb⟩
      · simp only [hn]
      · cases hsd : parse_study_days text <;> simp [hsd, ha, hb]
    · rcases hm with hm | hm <;> simp [hv, hm]
    · simp [hgen]
    · simp [hgen]
    · simp [hl, hs]
    · cases hld : parse_subject_loads text with
      | nil => exact absurd hld hl
      | cons l ls => simp [hld]
    · cases hsub : infer_subjects_without_amount text with
      | nil => exact absurd hsub hs
      | cons n ns => simp [hl, hsub]
    · cases exam_opt <;> simp [hm]
    · cases parse_daily_hours text <;> simp [hm]
    · cases parse_study_days text <;> simp only [Option.isSome_some] <;>
        first
          | exact hm
          | (split <;> simp [hm])
    · by_cases hgeq : extract_study_goal text = generalStr <;> simp [hgeq, hm]
    · cases parse_subject_loads text <;>
        [skip; simp] <;> cases infer_subjects_without_amount text <;> simp [hm]

/-- Witness memory for `update_chat_memory_frame`: daily hours and a study
goal are already set. -/
def witMemory : ChatMemory := { daily_hours := some 3, study_goal := some ("수학".toList) }

/-- Witness sentence: supplies an exam date and one subject load, but no
daily hours, study days or study goal. -/
def witText : List Char := "5월 2일 시험까지, 수학 10".toList

/-- The memory produced by the witness update: the exam date and subjects
are overwritten, everything else keeps its previous value. -/
def witResult : ChatMemory :=
  { exam_date := some ⟨⟨2027, 5, 2⟩, 0, 0⟩, subjects := some ["수학".toList],
    daily_hours := some 3, study_goal := some ("수학".toList), study_days := none }

/-- Witness for `update_chat_memory_frame` at concrete memory, sentence and
instant. -/
theorem update_chat_memory_frame_witness :
    update_chat_memory witMemory witText refNow = .ok witResult ∧
    UpdateFrameProp witMemory witText refNow witResult :=
  ⟨rfl, update_chat_memory_frame witMemory witText refNow witResult rfl⟩

/-- Claim C10 (confirmed): the bare subject-name fallback returns at most 8
subject names, and what it returns is the 8-element prefix (in source order)
of the full valid-token list after the subject marker. -/
theorem infer_subjects_limit (text : List Char) :
    (infer_subjects_without_amount text).length ≤ 8 ∧
    (∀ body, searchGroup matchSubjectBodyAt text = some body →
      containsSub kSubject text = true →
      ∃ rest, subject_tokens body = infer_subjects_without_amount text ++ rest) := by
  constructor
  · unfold infer_subjects_without_amount
    split
    · simp
    · cases hs : searchGroup matchSubjectBodyAt text with
      | none => simp
      | some body => simpa using Nat.min_le_left 8 (subject_tokens body).length
  · intro body hb hc
    unfold infer_subjects_without_amount
    rw [hc, hb]
    simp only [Bool.not_eq_true]
    exact ⟨(subject_tokens body).drop 8, (List.take_append_drop 8 _).symm⟩

/-- Witness for `infer_subjects_limit` (second conjunct applied): three
valid tokens after the marker, all kept. -/
theorem infer_subjects_limit_witness :
    ∃ rest, subject_tokens ("수학 영어 국어".toList) =
      infer_subjects_without_amount ("과목 수학 영어 국어".toList) ++ rest :=
  (infer_subjects_limit ("과목 수학 영어 국어".toList)).2
    ("수학 영어 국어".toList) rfl rfl

/-! ## Dedup behaviour of the event sink (claim C6) -/

/-- The (calendar day, normalized title) pair of a stored row. -/
def rowPair (r : DBRow) : Date × List Char := (r.time.date, title_key r.title)

/-- The (calendar day, normalized title) pair of a submitted event. -/
def evPair (ev : ParsedEvent) : Date × List Char := (ev.when.date, title_key ev.title)

/-- The rows of one dedup class. -/
def pairFilter (p : Date × List Char) (rows : List DBRow) : List DBRow :=
  rows.filter fun r => decide (rowPair r = p)

theorem rowMatches_iff (ev : ParsedEvent) (r : DBRow) :
    rowMatches ev r = true ↔ rowPair r = evPair ev := by
  simp [rowMatches, rowPair, evPair, Prod.ext_iff]

theorem updateFirstMatch_filter_self (ev : ParsedEvent) (rows : List DBRow)
    (h : rows.any (rowMatches ev) = true) :
    ∃ i, pairFilter (evPair ev) (updateFirstMatch ev rows) =
      [⟨i, ev.title, ev.when, false⟩] := by
  induction rows with
  | nil => simp at h
  | cons r rs ih =>
    by_cases hr : rowMatches ev r = true
    · refine ⟨r.id, ?_⟩
      unfold updateFirstMatch
      rw [if_pos hr]
      unfold pairFilter
      rw [List.filter_cons]
      have hpair :
          rowPair { r with title := ev.title, time := ev.when, notified := false } =
            evPair ev := rfl
      simp only [hpair, decide_True, if_true]
      have hnil : (List.filter (fun r2 => decide (rowPair r2 = evPair ev))
          (rs.filter fun r2 => ¬ rowMatches ev r2)) = [] := by
        rw [List.filter_eq_nil]
        intro a ha
        have hma := (List.mem_filter.mp ha).2
        simp only [decide_eq_true_eq] at hma ⊢
        intro hpa
        exact hma ((rowMatches_iff ev a).mpr hpa)
      rw [hnil]
    · have h' : rs.any (rowMatches ev) = true := by
        simp only [List.any_cons, Bool.or_eq_true] at h
        rcases h with h | h
        · exact absurd h hr
        · exact h
      obtain ⟨i, hi⟩ := ih h'
      refine ⟨i, ?_⟩
      unfold updateFirstMatch
      rw [if_neg hr]
      unfold pairFilter
      rw [List.filter_cons]
      have hd : decide (rowPair r = evPair ev) = false := by
        simp only [decide_eq_false_iff_not]
        intro hp
        exact hr ((rowMatches_iff ev r).mpr hp)
      simp only [hd, Bool.false_eq_true, if_false]
      exact hi

theorem updateFirstMatch_filter_ne (ev : ParsedEvent) (rows : List DBRow)
    (p : Date × List Char) (hp : p ≠ evPair ev) :
    pairFilter p (updateFirstMatch ev rows) = pairFilter p rows := by
  induction rows with
  | nil => rfl
  | cons r rs ih =>
    by_cases hr : rowMatches ev r = true
    · have hrp : rowPair r = evPair ev := (rowMatches_iff ev r).mp hr
      unfold updateFirstMatch
      rw [if_pos hr]
      unfold pairFilter
      rw [List.filter_cons, List.filter_cons]
      have h1 :
          decide
            (rowPair { r with title := ev.title, time := ev.when, notified := false } =
              p) = false := by
        simp only [decide_eq_false_iff_not]
        show ¬ ((ev.when.date, title_key ev.title) = p)
        intro he
        exact hp he.symm
      have h2 : decide (rowPair r = p) = false := by
        simp only [decide_eq_false_iff_not, hrp]
        exact fun he => hp he.symm
      simp only [h1, h2, Bool.false_eq_true, if_false]
      rw [List.filter_filter]
      apply List.filter_congr
      intro a _
      by_cases hm : rowMatches ev a = true
      · have hpa : rowPair a = evPair ev := (rowMatches_iff ev a).mp hm
        have : decide (rowPair a = p) = false := by
          simp only [decide_eq_false_iff_not, hpa]
          exact fun he => hp he.symm
        simp [this]
      · simp [hm]
    · unfold updateFirstMatch
      rw [if_neg hr]
      unfold pairFilter
      rw [List.filter_cons, List.filter_cons]
      have := ih
      unfold pairFilter at this
      rw [this]

theorem insertEventStep_filter_self (st : DBState) (ev : ParsedEvent) :
    ∃ i, pairFilter (evPair ev) (insertEventStep st ev).rows =
      [⟨i, ev.title, ev.when, false⟩] := by
  unfold insertEventStep
  by_cases hany : st.rows.any (rowMatches ev) = true
  · rw [if_pos hany]
    exact updateFirstMatch_filter_self ev st.rows hany
  · rw [if_neg hany]
    refine ⟨st.nextId, ?_⟩
    unfold pairFilter
    rw [List.filter_append]
    have hnil : List.filter (fun r => decide (rowPair r = evPair ev)) st.rows = [] := by
      rw [List.filter_eq_nil]
      intro a ha
      simp only [decide_eq_true_eq]
      intro hpa
      have : st.rows.any (rowMatches ev) = true :=
        List.any_eq_true.mpr ⟨a, ha, (rowMatches_iff ev a).mpr hpa⟩
      exact hany this
    rw [hnil]
    have hnew : rowPair ⟨st.nextId, ev.title, ev.when, false⟩ = evPair ev := rfl
    simp [hnew]

theorem insertEventStep_filter_ne (st : DBState) (ev : ParsedEvent)
    (p : Date × List Char) (hp : p ≠ evPair ev) :
    pairFilter p (insertEventStep st ev).rows = pairFilter p st.rows := by
  unfold insertEventStep
  by_cases hany : st.rows.any (rowMatches ev) = true
  · rw [if_pos hany]
    exact updateFirstMatch_filter_ne ev st.rows p hp
  · rw [if_neg hany]
    unfold pairFilter
    rw [List.filter_append]
    have hnew : decide (rowPair ⟨st.nextId, ev.title, ev.when, false⟩ = p) = false := by
      simp only [decide_eq_false_iff_not]
      show ¬ ((ev.when.date, title_key ev.title) = p)
      intro he
      exact hp he.symm
    simp [hnew]

theorem insert_events_filter_ne (evs : List ParsedEvent) (st : DBState)
    (p : Date × List Char) (hp : p ∉ evs.map evPair) :
    pairFilter p (insert_events evs st).rows = pairFilter p st.rows := by
  induction evs generalizing st with
  | nil => rfl
  | cons e es ih =>
    have hp1 : p ≠ evPair e := by
      intro he
      exact hp (by simp [he])
    have hp2 : p ∉ es.map evPair := by
      intro hm
      exact hp (by simp [hm])
    show pairFilter p (insert_events es (insertEventStep st e)).rows = _
    rw [ih (insertEventStep st e) hp2]
    exact insertEventStep_filter_ne st e p hp1

theorem insert_events_filter_mem (evs : List ParsedEvent) (st : DBState)
    (p : Date × List Char) (hp : p ∈ evs.map evPair) :
    ∃ i ev', ev' ∈ evs ∧ evPair ev' = p ∧
      pairFilter p (insert_events evs st).rows = [⟨i, ev'.title, ev'.when, false⟩] := by
  induction evs generalizing st with
  | nil => simp at hp
  | cons e es ih =>
    by_cases hmem : p ∈ es.map evPair
    · obtain ⟨i, ev', hmem', hpair', hfil⟩ := ih (insertEventStep st e) hmem
      exact ⟨i, ev', List.mem_cons_of_mem e hmem', hpair', hfil⟩
    · have hpe : p = evPair e := by
        rcases List.mem_map.mp hp with ⟨x, hx, hpx⟩
        rcases List.mem_cons.mp hx with rfl | hx'
        · exact hpx.symm
        · exact absurd (List.mem_map.mpr ⟨x, hx', hpx⟩) hmem
      obtain ⟨i, hfil⟩ := insertEventStep_filter_self st e
      refine ⟨i, e, List.mem_cons_self e es, hpe.symm, ?_⟩
      show pairFilter p (insert_events es (insertEventStep st e)).rows = _
      rw [insert_events_filter_ne es (insertEventStep st e) p hmem, hpe, hfil]

/-- Claim C6 (confirmed): submitting the same event list twice (from any
initial table) leaves exactly one stored row per (calendar day, normalized
title) pair occurring in the submission — its title and time those of a
submitted event of that pair and its notified flag false — and leaves the
rows of every other pair untouched. -/
theorem insert_events_dedup_spec (evs : List ParsedEvent) (st : DBState)
    (p : Date × List Char) :
    (p ∈ evs.map evPair →
      ∃ i ev', ev' ∈ evs ∧ evPair ev' = p ∧
        pairFilter p (insert_events evs (insert_events evs st)).rows =
          [⟨i, ev'.title, ev'.when, false⟩]) ∧
    (p ∉ evs.map evPair →
      pairFilter p (insert_events evs (insert_events evs st)).rows =
        pairFilter p st.rows) := by
  constructor
  · intro hp
    exact insert_events_filter_mem evs (insert_events evs st) p hp
  · intro hp
    rw [insert_events_filter_ne evs (insert_events evs st) p hp,
      insert_events_filter_ne evs st p hp]

/-- Witness events for `insert_events_dedup_spec`: same day, titles equal
after normalization, different times. -/
def dbEvA : ParsedEvent := ⟨⟨⟨2026, 7, 1⟩, 9, 0⟩, "회의 A".toList⟩

def dbEvB : ParsedEvent := ⟨⟨⟨2026, 7, 1⟩, 10, 0⟩, "회의a".toList⟩

/-- Witness for `insert_events_dedup_spec`: submitting `[dbEvA, dbEvB]`
twice to an empty table leaves exactly one row for their shared pair. -/
theorem insert_events_dedup_spec_witness :
    ∃ i ev', ev' ∈ [dbEvA, dbEvB] ∧ evPair ev' = evPair dbEvA ∧
      pairFilter (evPair dbEvA)
          (insert_events [dbEvA, dbEvB] (insert_events [dbEvA, dbEvB] ⟨[], 1⟩)).rows =
        [⟨i, ev'.title, ev'.when, false⟩] :=
  (insert_events_dedup_spec [dbEvA, dbEvB] ⟨[], 1⟩ (evPair dbEvA)).1 (by decide)

/-! ## Idempotence analysis of `normalize_title` (claim C5) -/

/-- No two adjacent whitespace characters. -/
def NoTwoWs (l : List Char) : Prop :=
  l.Chain' fun a b => ¬(isPyWs a = true ∧ isPyWs b = true)

theorem collapseWs_allSpace (l : List Char) :
    ∀ c ∈ collapseWs l, isPyWs c = true → c = ' ' := by
  induction l with
  | nil => simp [collapseWs]
  | cons a t ih =>
    intro c hc hw
    cases t with
    | nil =>
      simp only [collapseWs] at hc
      by_cases ha : isPyWs a = true
      · rw [if_pos ha] at hc
        simpa using hc
      · rw [if_neg ha] at hc
        simp only [List.mem_singleton] at hc
        subst hc
        exact absurd hw ha
    | cons b u =>
      simp only [collapseWs] at hc
      by_cases ha : isPyWs a = true
      · rw [if_pos ha] at hc
        by_cases hb : isPyWs b = true
        · rw [if_pos hb] at hc
          exact ih c hc hw
        · rw [if_neg hb] at hc
          rcases List.mem_cons.mp hc with rfl | hc'
          · rfl
          · exact ih c hc' hw
      · rw [if_neg ha] at hc
        rcases List.mem_cons.mp hc with rfl | hc'
        · exact absurd hw ha
        · exact ih c hc' hw

theorem collapseWs_head (b : Char) (l : List Char) :
    (collapseWs (b :: l)).head? = some (if isPyWs b = true then ' ' else b) := by
  induction l generalizing b with
  | nil =>
    simp only [collapseWs]
    by_cases hb : isPyWs b = true <;> simp [hb]
  | cons v w ih =>
    simp only [collapseWs]
    by_cases hb : isPyWs b = true
    · rw [if_pos hb, if_pos hb]
      by_cases hv : isPyWs v = true
      · rw [if_pos hv, ih v, if_pos hv]
      · rw [if_neg hv]
        rfl
    · rw [if_neg hb, if_neg hb]
      rfl

theorem collapseWs_chain (l : List Char) : NoTwoWs (collapseWs l) := by
  induction l with
  | nil => simp [collapseWs, NoTwoWs]
  | cons a t ih =>
    cases t with
    | nil =>
      unfold NoTwoWs
      simp only [collapseWs]
      by_cases ha : isPyWs a = true
      · rw [if_pos ha]; exact List.chain'_singleton ' '
      · rw [if_neg ha]; exact List.chain'_singleton a
    | cons b u =>
      unfold NoTwoWs
      simp only [collapseWs]
      by_cases ha : isPyWs a = true
      · rw [if_pos ha]
        by_cases hb : isPyWs b = true
        · rw [if_pos hb]
          exact ih
        · rw [if_neg hb]
          refine List.chain'_cons'.mpr ⟨?_, ih⟩
          intro y hy
          rw [collapseWs_head b u, if_neg hb] at hy
          simp only [Option.mem_def, Option.some.injEq] at hy
          subst hy
          exact fun hcon => hb hcon.2
      · rw [if_neg ha]
        refine List.chain'_cons'.mpr ⟨?_, ih⟩
        intro y _
        exact fun hcon => ha hcon.1

theorem collapseWs_eq_self (l : List Char)
    (hall : ∀ c ∈ l, isPyWs c = true → c = ' ') (hch : NoTwoWs l) :
    collapseWs l = l := by
  induction l with
  | nil => rfl
  | cons a t ih =>
    cases t with
    | nil =>
      simp only [collapseWs]
      by_cases ha : isPyWs a = true
      · rw [if_pos ha, hall a (by simp) ha]
      · rw [if_neg ha]
    | cons b u =>
      have hmp := List.chain'_cons.mp hch
      have hall' : ∀ c ∈ b :: u, isPyWs c = true → c = ' ' :=
        fun c hc => hall c (List.mem_cons_of_mem a hc)
      simp only [collapseWs]
      by_cases ha : isPyWs a = true
      · rw [if_pos ha]
        have hb : ¬ isPyWs b = true := fun hb => hmp.1 ⟨ha, hb⟩
        rw [if_neg hb, ih hall' hmp.2, hall a (by simp) ha]
      · rw [if_neg ha, ih hall' hmp.2]

theorem dropWhile_head_not (p : Char → Bool) (l : List Char) (c : Char)
    (h : (l.dropWhile p).head? = some c) : p c = false := by
  induction l with
  | nil => simp at h
  | cons a t ih =>
    by_cases ha : p a = true
    · rw [List.dropWhile_cons, if_pos ha] at h
      exact ih h
    · rw [List.dropWhile_cons, if_neg ha] at h
      simp only [List.head?_cons, Option.some.injEq] at h
      subst h
      exact eq_false_of_ne_true ha

theorem stripEnd_append (p : Char → Bool) (l : List Char) :
    ∃ v, l = stripEnd p l ++ v := by
  obtain ⟨u, hu⟩ := List.dropWhile_suffix (l := l.reverse) p
  refine ⟨u.reverse, ?_⟩
  unfold stripEnd
  calc l = l.reverse.reverse := (List.reverse_reverse l).symm
  _ = (u ++ l.reverse.dropWhile p).reverse := by rw [hu]
  _ = (l.reverse.dropWhile p).reverse ++ u.reverse := by rw [List.reverse_append]

theorem mem_stripBoth (p : Char → Bool) (l : List Char) (c : Char)
    (h : c ∈ stripBoth p l) : c ∈ l := by
  obtain ⟨v, hv⟩ := stripEnd_append p (l.dropWhile p)
  have h1 : c ∈ l.dropWhile p := by
    rw [hv]
    exact List.mem_append_left v h
  exact (List.dropWhile_suffix p).sublist.mem h1

theorem chain_stripBoth (R : Char → Char → Prop) (l : List Char)
    (h : List.Chain' R l) (p : Char → Bool) : List.Chain' R (stripBoth p l) := by
  have h1 : List.Chain' R (l.dropWhile p) := h.suffix (List.dropWhile_suffix p)
  obtain ⟨v, hv⟩ := stripEnd_append p (l.dropWhile p)
  rw [hv] at h1
  exact h1.left_of_append

theorem stripBoth_head_not (p : Char → Bool) (l : List Char) (c : Char)
    (h : (stripBoth p l).head? = some c) : p c = false := by
  obtain ⟨v, hv⟩ := stripEnd_append p (l.dropWhile p)
  apply dropWhile_head_not p l c
  rw [hv]
  cases hs : stripEnd p (l.dropWhile p) with
  | nil => rw [show stripBoth p l = stripEnd p (l.dropWhile p) from rfl, hs] at h; simp at h
  | cons x xs =>
    rw [show stripBoth p l = stripEnd p (l.dropWhile p) from rfl, hs] at h
    simp only [List.head?_cons, Option.some.injEq] at h
    subst h
    rfl

theorem stripEnd_last_not (q : Char → Bool) (l : List Char) (c : Char)
    (h : (stripEnd q l).getLast? = some c) : q c = false := by
  unfold stripEnd at h
  rw [List.getLast?_reverse] at h
  exact dropWhile_head_not q l.reverse c h

theorem stripBoth_last_not (p : Char → Bool) (l : List Char) (c : Char)
    (h : (stripBoth p l).getLast? = some c) : p c = false :=
  stripEnd_last_not p (l.dropWhile p) c h

theorem dropWhile_eq_self_of_head (p : Char → Bool) (l : List Char)
    (h : ∀ c, l.head? = some c → p c = false) : l.dropWhile p = l := by
  cases l with
  | nil => rfl
  | cons a t =>
    rw [List.dropWhile_cons, if_neg]
    simp [h a rfl]

theorem stripEnd_eq_self_of_last (p : Char → Bool) (l : List Char)
    (h : ∀ c, l.getLast? = some c → p c = false) : stripEnd p l = l := by
  unfold stripEnd
  rw [dropWhile_eq_self_of_head p l.reverse
    (fun c hc => h c (by rwa [List.head?_reverse] at hc)), List.reverse_reverse]

theorem stripBoth_eq_self (p : Char → Bool) (l : List Char)
    (hh : ∀ c, l.head? = some c → p c = false)
    (hl : ∀ c, l.getLast? = some c → p c = false) : stripBoth p l = l := by
  unfold stripBoth
  rw [dropWhile_eq_self_of_head p l hh, stripEnd_eq_self_of_last p l hl]

theorem stripBoth_idem (p : Char → Bool) (l : List Char) :
    stripBoth p (stripBoth p l) = stripBoth p l :=
  stripBoth_eq_self p _ (fun c hc => stripBoth_head_not p l c hc)
    (fun c hc => stripBoth_last_not p l c hc)

theorem pyStrip_eq_self_of (O : List Char)
    (hall : ∀ c ∈ O, isPyWs c = true → c = ' ')
    (hh : ∀ c, O.head? = some c → isSpm c = false)
    (hl : ∀ c, O.getLast? = some c → isSpm c = false) : pyStrip O = O := by
  apply stripBoth_eq_self
  · intro c hc
    by_cases hw : isPyWs c = true
    · have hsp := hall c (List.mem_of_mem_head? hc) hw
      subst hsp
      exact absurd (hh ' ' hc) (by decide)
    · exact eq_false_of_ne_true hw
  · intro c hc
    by_cases hw : isPyWs c = true
    · have hsp := hall c (List.mem_of_mem_getLast? hc) hw
      subst hsp
      exact absurd (hl ' ' hc) (by decide)
    · exact eq_false_of_ne_true hw

/-- Every output of `normalize_title` is either the default title or a
nonempty `stripBoth isSpm (collapseWs ·)` image. -/
theorem normalize_title_shape (s : List Char) :
    normalize_title s = kDefaultTitle ∨
    (∃ w, normalize_title s = stripBoth isSpm (collapseWs w) ∧
      normalize_title s ≠ []) := by
  simp only [normalize_title]
  split
  · exact Or.inl rfl
  · next hne => exact Or.inr ⟨_, rfl, hne⟩

/-- Claim C5 counterexample: `normalize_title` is not idempotent.  On
`"회의가가"` one pass strips a single trailing particle, leaving `"회의가"`,
and a second pass strips another. -/
theorem normalize_title_not_idempotent :
    normalize_title (normalize_title ("회의가가".toList)) ≠
      normalize_title ("회의가가".toList) ∧
    normalize_title ("회의가가".toList) = "회의가".toList ∧
    normalize_title ("회의가".toList) = "회의".toList := by
  refine ⟨by decide, rfl, rfl⟩

/-- Claim C5 (amended): normalization is idempotent on every input whose
normalized form is a fixpoint of the three particle-stripping steps — it
neither begins with a leading topic/subject/object particle, nor ends in an
auxiliary ending, nor ends in a single-character particle.  (The remaining
steps — punctuation stripping, whitespace stripping and collapsing, and the
empty-to-default substitution — are always fixpoints on normalized output,
which is what this theorem proves.) -/
theorem normalize_title_idem_amended (s : List Char)
    (h2 : dropLeadingParticle (normalize_title s) = normalize_title s)
    (h3 : dropTrailingAux (normalize_title s) = normalize_title s)
    (h5 : dropTrailingParticle (normalize_title s) = normalize_title s) :
    normalize_title (normalize_title s) = normalize_title s := by
  rcases normalize_title_shape s with hdef | ⟨w, hw, hne⟩
  · rw [hdef]
    decide
  · have hall : ∀ c ∈ normalize_title s, isPyWs c = true → c = ' ' := by
      rw [hw]
      exact fun c hc hwc => collapseWs_allSpace w c (mem_stripBoth _ _ c hc) hwc
    have hchain : NoTwoWs (normalize_title s) := by
      rw [hw]
      exact chain_stripBoth _ _ (collapseWs_chain w) _
    have h1 : stripBoth isSpm (normalize_title s) = normalize_title s := by
      rw [hw]
      exact stripBoth_idem _ _
    have h4 : pyStrip (normalize_title s) = normalize_title s := by
      refine pyStrip_eq_self_of _ hall ?_ ?_
      · intro c hc
        rw [hw] at hc
        exact stripBoth_head_not _ _ _ hc
      · intro c hc
        rw [hw] at hc
        exact stripBoth_last_not _ _ _ hc
    have hcoll : collapseWs (normalize_title s) = normalize_title s :=
      collapseWs_eq_self _ hall hchain
    generalize hgen : normalize_title s = N at h2 h3 h5 h1 h4 hcoll hne ⊢
    simp only [normalize_title, h1, h2, h3, h4, h5, hcoll]
    rw [if_neg hne]

/-- Witness for `normalize_title_idem_amended` on a title free of particles
and auxiliary endings. -/
theorem normalize_title_idem_amended_witness :
    normalize_title (normalize_title ("회의".toList)) = normalize_title ("회의".toList) :=
  normalize_title_idem_amended ("회의".toList) (by decide) (by decide) (by decide)
